import Mathlib

/-!
Shallow embedding of the io_uring completion-queue consumer (`src/cqueue.rs`).

The shared memory region (head/tail counters, overflow counter, ring flags and
the entry array) is modelled as an explicit `Shared` state; the 32-bit counters
are `Nat` values taken modulo `2^32`, with Rust's `wrapping_sub`/`wrapping_add`
made explicit. The consumer view `CompletionQueue` (local head/tail snapshot)
and its operations `sync`, `pop`, `fill`, `next` (the `Iterator` step),
iteration to exhaustion (`drain`) and the `Drop` implementation are translated
as pure state-passing functions. Operations that in Rust merely do not touch
the shared memory return it unchanged, so that non-interference is visible in
the theorems.
-/

namespace IoUring

/-- `2^32`, the modulus of the ring's 32-bit head/tail counters. -/
def M32 : Nat := 4294967296

/-- Rust `u32::wrapping_sub` on counters already reduced below `2^32`. -/
def wsub (a b : Nat) : Nat := (a + M32 - b) % M32

/-- Rust `u32::wrapping_add(·, 1)`, used by `pop` to advance the local head. -/
def wadd1 (a : Nat) : Nat := (a + 1) % M32

/-- The shared, memory-mapped ring state that `Inner`'s raw pointers target:
the kernel-visible head and tail counters, the overflow counter, the ring
flags word, and the completion-entry array (indexed by masked slot). -/
structure Shared (E : Type) where
  head : Nat
  tail : Nat
  overflow : Nat
  flags : Nat
  cqes : Nat → E

/-- The immutable part of `Inner`: the ring geometry read once at setup
(`ring_mask` and `ring_entries`, with `ring_mask = ring_entries - 1`). -/
structure Inner where
  ring_mask : Nat
  ring_entries : Nat

/-- The borrowed consumer view: local snapshots of the head and tail
counters (`CompletionQueue { head, tail, queue }` in the source). -/
structure CompletionQueue where
  head : Nat
  tail : Nat

/-- `Inner::borrow_shared`: snapshot the shared head (unsynchronized load)
and the shared tail (acquire load) into a fresh view. -/
def Inner.borrow_shared (sh : Shared E) : CompletionQueue :=
  { head := sh.head, tail := sh.tail }

/-- `ExactSizeIterator::len`: `self.tail.wrapping_sub(self.head)`. -/
def CompletionQueue.len (cq : CompletionQueue) : Nat :=
  wsub cq.tail cq.head

/-- `CompletionQueue::capacity`: the fixed `ring_entries`. -/
def capacity (inner : Inner) : Nat := inner.ring_entries

/-- `CompletionQueue::is_empty`: `self.len() == 0`. -/
def CompletionQueue.is_empty (cq : CompletionQueue) : Bool :=
  cq.len == 0

/-- `CompletionQueue::is_full`: `self.len() == self.capacity()`. -/
def CompletionQueue.is_full (inner : Inner) (cq : CompletionQueue) : Bool :=
  cq.len == capacity inner

/-- `CompletionQueue::sync`: store the local head into the shared head
(release), then reload the local tail from the shared tail (acquire). -/
def CompletionQueue.sync (cq : CompletionQueue) (sh : Shared E) :
    CompletionQueue × Shared E :=
  ({ head := cq.head, tail := sh.tail }, { sh with head := cq.head })

/-- `CompletionQueue::pop`: read the entry at slot `head & ring_mask`,
advance the local head by one (wrapping), return a clone of the entry.
The shared state is threaded through unchanged, exactly as the source's
`pop` touches only `self.head`. -/
def CompletionQueue.pop (inner : Inner) (cq : CompletionQueue) (sh : Shared E) :
    E × CompletionQueue × Shared E :=
  (sh.cqes (cq.head &&& inner.ring_mask), { head := wadd1 cq.head, tail := cq.tail }, sh)

/-- `Iterator::next`: pop if `head != tail`, otherwise `None`. -/
def CompletionQueue.next (inner : Inner) (cq : CompletionQueue) (sh : Shared E) :
    Option E × CompletionQueue × Shared E :=
  if cq.head ≠ cq.tail then
    let r := cq.pop inner sh
    (some r.1, r.2.1, r.2.2)
  else
    (none, cq, sh)

/-- `n` consecutive unchecked pops, the loop kernel of `fill`. -/
def popN (inner : Inner) : Nat → CompletionQueue → Shared E → List E × CompletionQueue × Shared E
  | 0, cq, sh => ([], cq, sh)
  | n + 1, cq, sh =>
    let r := cq.pop inner sh
    let rest := popN inner n r.2.1 r.2.2
    (r.1 :: rest.1, rest.2)

/-- `CompletionQueue::fill`: pop `min(self.len(), entries.len())` entries
into the caller's buffer and return the filled prefix. The buffer is
abstracted by its length `bufLen`. -/
def CompletionQueue.fill (inner : Inner) (cq : CompletionQueue) (sh : Shared E)
    (bufLen : Nat) : List E × CompletionQueue × Shared E :=
  popN inner (min cq.len bufLen) cq sh

/-- Run the `Iterator::next` loop with explicit fuel; `next` never yields
after `head` reaches `tail`, so `cq.len` fuel exhausts the view. -/
def drainAux (inner : Inner) : Nat → CompletionQueue → Shared E → List E × CompletionQueue × Shared E
  | 0, cq, sh => ([], cq, sh)
  | fuel + 1, cq, sh =>
    match cq.next inner sh with
    | (some e, cq', sh') =>
      let rest := drainAux inner fuel cq' sh'
      (e :: rest.1, rest.2)
    | (none, cq', sh') => ([], cq', sh')

/-- Iterating the view to exhaustion (collecting the `Iterator`). -/
def CompletionQueue.drain (inner : Inner) (cq : CompletionQueue) (sh : Shared E) :
    List E × CompletionQueue × Shared E :=
  drainAux inner cq.len cq sh

/-- `Drop for CompletionQueue`: unconditionally store the local head into
the shared head (release ordering) when the borrow ends. -/
def CompletionQueue.drop (cq : CompletionQueue) (sh : Shared E) : Shared E :=
  { sh with head := cq.head }

/-! ### Entry layouts

`Entry` wraps `sys::io_uring_cqe`; `Entry32` is an `Entry` plus two auxiliary
64-bit words. The `sys` bindings are generated from kernel headers and are not
part of this crate's sources, so the record layout is modelled from the spec. -/

/-- Modelled from the spec: the kernel's `io_uring_cqe` record missing from
the crate sources (`sys` bindings) — correlation token `user_data` (u64),
result code `res` (i32), `flags` (u32). -/
structure IoUringCqe where
  user_data : Nat
  res : Int
  flags : Nat

/-- The 16-byte completion entry `Entry(sys::io_uring_cqe)`. -/
structure Entry where
  cqe : IoUringCqe

/-- The 32-byte completion entry `Entry32(Entry, [u64; 2])`. -/
structure Entry32 where
  base : Entry
  big0 : Nat
  big1 : Nat

/-- `EntryMarker::result` for `Entry`: `self.0.res`. -/
def Entry.result (e : Entry) : Int := e.cqe.res

/-- `EntryMarker::user_data` for `Entry`: `self.0.user_data`. -/
def Entry.user_data (e : Entry) : Nat := e.cqe.user_data

/-- `EntryMarker::flags` for `Entry`: `self.0.flags`. -/
def Entry.flags (e : Entry) : Nat := e.cqe.flags

/-- `EntryMarker::result` for `Entry32`: `self.0.0.res`. -/
def Entry32.result (e : Entry32) : Int := e.base.cqe.res

/-- `EntryMarker::user_data` for `Entry32`: `self.0.0.user_data`. -/
def Entry32.user_data (e : Entry32) : Nat := e.base.cqe.user_data

/-- `EntryMarker::flags` for `Entry32`: `self.0.0.flags`. -/
def Entry32.flags (e : Entry32) : Nat := e.base.cqe.flags

/-- `Entry32::big_cqe`: the two auxiliary 64-bit words. -/
def Entry32.big_cqe (e : Entry32) : Nat × Nat := (e.big0, e.big1)

/-- `From<Entry32> for Entry`: `entry32.0`, keeping the base 16-byte entry
and discarding the auxiliary payload. -/
def Entry.ofEntry32 (e : Entry32) : Entry := e.base

/-- Modelled from the spec: little-endian byte serialization of an unsigned
64-bit word (the layout of `user_data` and the auxiliary words). -/
def u64Bytes (n : Nat) : List Nat :=
  [n % 256, n / 256 % 256, n / 256 / 256 % 256, n / 256 / 256 / 256 % 256,
   n / 256 / 256 / 256 / 256 % 256, n / 256 / 256 / 256 / 256 / 256 % 256,
   n / 256 / 256 / 256 / 256 / 256 / 256 % 256,
   n / 256 / 256 / 256 / 256 / 256 / 256 / 256 % 256]

/-- Modelled from the spec: little-endian byte serialization of an unsigned
32-bit word (the layout of `flags`). -/
def u32Bytes (n : Nat) : List Nat :=
  [n % 256, n / 256 % 256, n / 256 / 256 % 256, n / 256 / 256 / 256 % 256]

/-- Modelled from the spec: two's-complement little-endian serialization of a
signed 32-bit word (the layout of `res`). -/
def i32Bytes (i : Int) : List Nat :=
  u32Bytes (i % 4294967296).toNat

/-- Little-endian value of a byte string. -/
def leVal : List Nat → Nat
  | [] => 0
  | b :: bs => b + 256 * leVal bs

/-- Modelled from the spec: the kernel-defined binary layout of the compact
entry — bytes 0–7 the correlation token, bytes 8–11 the result code, bytes
12–15 the flags. -/
def Entry.toBytes (e : Entry) : List Nat :=
  u64Bytes e.cqe.user_data ++ i32Bytes e.cqe.res ++ u32Bytes e.cqe.flags

/-- Modelled from the spec: the extended entry layout — the compact 16 bytes
followed by the two auxiliary 64-bit words. -/
def Entry32.toBytes (e : Entry32) : List Nat :=
  e.base.toBytes ++ u64Bytes e.big0 ++ u64Bytes e.big1

/-! ### Flag decoding -/

/-- Modelled from the spec: the kernel constant `IORING_CQE_F_BUFFER`
(missing from the crate sources, `sys` bindings): the buffer-selected bit. -/
def IORING_CQE_F_BUFFER : Nat := 1

/-- Modelled from the spec: the kernel constant `IORING_CQE_BUFFER_SHIFT`
(missing from the crate sources, `sys` bindings): the provider-buffer id
occupies the upper 16 bits of the flags word. -/
def IORING_CQE_BUFFER_SHIFT : Nat := 16

/-- `cqueue::buffer_select`: if the buffer-selected bit is set, return the id
from the upper bits (the `as u16` cast is the `% 2^16` reduction). -/
def buffer_select (flags : Nat) : Option Nat :=
  if flags &&& IORING_CQE_F_BUFFER ≠ 0 then
    some ((flags >>> IORING_CQE_BUFFER_SHIFT) % 65536)
  else
    none

/-! ### Reachable consumer states

Ghost totals for the invariant: `produced` completions appended by the kernel,
`snap` the produced count last observed by the view (at borrow or sync),
`consumed` the view's local progress, `published` the consumed count last
stored into the shared head. The concrete view holds these counts mod `2^32`. -/

/-- Ghost state for reachability: the unreduced operation counts whose
residues mod `2^32` the concrete counters hold. -/
structure Ghost where
  produced : Nat
  snap : Nat
  consumed : Nat
  published : Nat

/-- The concrete consumer view determined by a ghost state. -/
def Ghost.view (g : Ghost) : CompletionQueue :=
  { head := g.consumed % M32, tail := g.snap % M32 }

/-- States reachable by a borrow followed by producer appends (never more
than `cap` ahead of the published head), `sync`, guarded `pop` (the iterator
step), and `fill`. -/
inductive Reach (cap : Nat) : Ghost → Prop where
  | borrow (p c : Nat) (hc : c ≤ p) (hcap : p - c ≤ cap) :
      Reach cap ⟨p, p, c, c⟩
  | produce {g : Ghost} (k : Nat) (hg : Reach cap g)
      (hcap : g.produced + k - g.published ≤ cap) :
      Reach cap ⟨g.produced + k, g.snap, g.consumed, g.published⟩
  | sync {g : Ghost} (hg : Reach cap g) :
      Reach cap ⟨g.produced, g.produced, g.consumed, g.consumed⟩
  | pop {g : Ghost} (hg : Reach cap g) (hne : g.consumed < g.snap) :
      Reach cap ⟨g.produced, g.snap, g.consumed + 1, g.published⟩
  | fill {g : Ghost} (k : Nat) (hg : Reach cap g) :
      Reach cap ⟨g.produced, g.snap, g.consumed + min (g.snap - g.consumed) k, g.published⟩

/-! ### Concrete instances used by the witnesses -/

/-- A ring of 4 slots (`ring_mask = 3`). -/
def innerW : Inner := { ring_mask := 3, ring_entries := 4 }

/-- A ring of 16 slots (`ring_mask = 15`). -/
def innerW16 : Inner := { ring_mask := 15, ring_entries := 16 }

/-- Shared state whose slot `i` holds entry `100 + i`. -/
def shW : Shared Nat :=
  { head := 0, tail := 2, overflow := 0, flags := 0, cqes := fun i => 100 + i }

/-- A view with two unconsumed entries. -/
def cqW : CompletionQueue := { head := 0, tail := 2 }

/-- A concrete compact entry. -/
def eW : Entry := { cqe := { user_data := 258, res := -1, flags := 5 } }

/-- A concrete extended entry. -/
def e32W : Entry32 := { base := eW, big0 := 7, big1 := 9 }

/-! ### Arithmetic helper lemmas -/

theorem wsub_eq_of_lt {a b : Nat} (ha : a < M32) (hb : b < M32) :
    wsub a b = if b ≤ a then a - b else a + M32 - b := by
  simp only [wsub, M32] at *
  split <;> omega

theorem wsub_self (a : Nat) (ha : a < M32) : wsub a a = 0 := by
  simp only [wsub, M32] at *
  omega

theorem wsub_eq_zero_iff {a b : Nat} (ha : a < M32) (hb : b < M32) :
    wsub a b = 0 ↔ a = b := by
  simp only [wsub, M32] at *
  omega

theorem wsub_wadd1 {t h : Nat} (ht : t < M32) (hh : h < M32) (hne : h ≠ t) :
    wsub t (wadd1 h) = wsub t h - 1 := by
  simp only [wsub, wadd1, M32] at *
  omega

theorem wsub_add_le {t h n : Nat} (ht : t < M32) (hh : h < M32)
    (hn : n ≤ wsub t h) : wsub t ((h + n) % M32) = wsub t h - n := by
  simp only [wsub, M32] at *
  omega

theorem add_wsub_mod {t h : Nat} (ht : t < M32) (hh : h < M32) :
    (h + wsub t h) % M32 = t := by
  simp only [wsub, M32] at *
  omega

/-! ### Theorems -/

theorem popN_spec (inner : Inner) (sh : Shared E) (n : Nat) :
    ∀ cq : CompletionQueue, cq.head < M32 →
      popN inner n cq sh =
        ((List.range n).map (fun i => sh.cqes (((cq.head + i) % M32) &&& inner.ring_mask)),
         { head := (cq.head + n) % M32, tail := cq.tail }, sh) := by
  induction n with
  | zero =>
    intro cq hh
    simp [popN, Nat.mod_eq_of_lt hh]
  | succ n ih =>
    intro cq hh
    have hh' : wadd1 cq.head < M32 := by
      simp only [wadd1, M32]
      omega
    have ih' := ih { head := wadd1 cq.head, tail := cq.tail } hh'
    have hx : (wadd1 cq.head + n) % M32 = (cq.head + (n + 1)) % M32 := by
      simp only [wadd1, M32]
      omega
    have hL : (List.range (n + 1)).map
          (fun i => sh.cqes (((cq.head + i) % M32) &&& inner.ring_mask)) =
        sh.cqes (cq.head &&& inner.ring_mask) ::
          (List.range n).map
            (fun i => sh.cqes (((wadd1 cq.head + i) % M32) &&& inner.ring_mask)) := by
      rw [List.range_succ_eq_map, List.map_cons, List.map_map]
      congr 1
      · simp [Nat.mod_eq_of_lt hh]
      · refine List.map_congr_left fun i _ => ?_
        have h2 : (cq.head + (i + 1)) % M32 = (wadd1 cq.head + i) % M32 := by
          simp only [wadd1, M32]
          omega
        simp only [Function.comp_apply, Nat.succ_eq_add_one, h2]
    simp only [popN, CompletionQueue.pop, ih', hL, hx]

theorem drainAux_eq_popN (inner : Inner) (sh : Shared E) :
    ∀ (fuel : Nat) (cq : CompletionQueue), cq.head < M32 → cq.tail < M32 →
      cq.len ≤ fuel → drainAux inner fuel cq sh = popN inner cq.len cq sh := by
  intro fuel
  induction fuel with
  | zero =>
    intro cq hh ht hle
    have h0 : cq.len = 0 := Nat.le_zero.mp hle
    rw [h0]
    simp [drainAux, popN]
  | succ fuel ih =>
    intro cq hh ht hle
    by_cases hc : cq.head = cq.tail
    · have h0 : cq.len = 0 := by
        show wsub cq.tail cq.head = 0
        rw [hc, wsub_self _ ht]
      rw [h0]
      simp [drainAux, CompletionQueue.next, hc, popN]
    · have hpos : 0 < cq.len := by
        rcases Nat.eq_zero_or_pos cq.len with h | h
        · exact absurd ((wsub_eq_zero_iff ht hh).mp h).symm hc
        · exact h
      obtain ⟨m, hm⟩ : ∃ m, cq.len = m + 1 := ⟨cq.len - 1, by omega⟩
      have hmf : m ≤ fuel := by omega
      have hnext : cq.next inner sh =
          (some (sh.cqes (cq.head &&& inner.ring_mask)),
           { head := wadd1 cq.head, tail := cq.tail }, sh) := by
        simp [CompletionQueue.next, CompletionQueue.pop, hc]
      have hh' : wadd1 cq.head < M32 := by
        simp only [wadd1, M32]
        omega
      have hlen_eq : cq.len = wsub cq.tail cq.head := rfl
      have hlen' : CompletionQueue.len { head := wadd1 cq.head, tail := cq.tail } = m := by
        show wsub cq.tail (wadd1 cq.head) = m
        rw [wsub_wadd1 ht hh hc]
        omega
      have ih' := ih { head := wadd1 cq.head, tail := cq.tail } hh' ht
        (by rw [hlen']; exact hmf)
      rw [hm]
      simp only [drainAux, hnext]
      rw [ih', hlen']
      simp only [popN, CompletionQueue.pop]

/-- The value a little-endian u64 byte string denotes is the serialized word. -/
theorem leVal_u64 (n : Nat) (hn : n < 18446744073709551616) :
    leVal (u64Bytes n) = n := by
  simp only [u64Bytes, leVal]
  omega

/-- The value a little-endian u32 byte string denotes is the serialized word. -/
theorem leVal_u32 (n : Nat) (hn : n < 4294967296) :
    leVal (u32Bytes n) = n := by
  simp only [u32Bytes, leVal]
  omega

/-- Claim C3: with a nonempty view, `pop` returns the entry at slot
`head & ring_mask`, advances the local head by exactly one with wrapping
addition, and leaves the local tail and the shared memory untouched. -/
theorem pop_spec (inner : Inner) (cq : CompletionQueue) (sh : Shared E)
    (hne : 0 < cq.len) :
    (cq.pop inner sh).1 = sh.cqes (cq.head &&& inner.ring_mask) ∧
    (cq.pop inner sh).2.1.head = (cq.head + 1) % M32 ∧
    (cq.pop inner sh).2.1.tail = cq.tail ∧
    (cq.pop inner sh).2.2 = sh := by
  refine ⟨rfl, rfl, rfl, rfl⟩

/-- Witness for `pop_spec` at a concrete nonempty view. -/
theorem pop_spec_witness :
    (cqW.pop innerW shW).1 = 100 ∧ (cqW.pop innerW shW).2.1.head = 1 := by
  have h := pop_spec innerW cqW shW (by decide)
  exact ⟨h.1.trans (by decide), h.2.1.trans (by decide)⟩

/-- Claim C5: dropping a view stores the view's local head into the shared
head, unconditionally, with no sync required; a view borrowed afterwards
starts from that head (and from the untouched shared tail). -/
theorem drop_publishes_head (cq : CompletionQueue) (sh : Shared E) :
    (cq.drop sh).head = cq.head ∧
    (Inner.borrow_shared (cq.drop sh)).head = cq.head ∧
    (Inner.borrow_shared (cq.drop sh)).tail = sh.tail :=
  ⟨rfl, rfl, rfl⟩

/-- Claim C7: with no producer activity in between, a second `sync` leaves
the view and the shared memory exactly as the first left them. -/
theorem sync_idempotent (cq : CompletionQueue) (sh : Shared E) :
    CompletionQueue.sync (cq.sync sh).1 (cq.sync sh).2 = cq.sync sh :=
  rfl

/-- Claim C8: for every 32-bit flags word, `buffer_select` returns the bits
above the buffer shift exactly when the buffer-selected bit is set, and
`none` when it is clear (the `u16` cast loses nothing below `2^32`). -/
theorem buffer_select_spec (flags : Nat) (hf : flags < M32) :
    buffer_select flags =
      (if flags &&& IORING_CQE_F_BUFFER ≠ 0 then
        some (flags >>> IORING_CQE_BUFFER_SHIFT)
      else none) ∧
    (buffer_select flags = none ↔ flags &&& IORING_CQE_F_BUFFER = 0) := by
  have hshift : flags >>> IORING_CQE_BUFFER_SHIFT = flags / 65536 := by
    simp [IORING_CQE_BUFFER_SHIFT, Nat.shiftRight_eq_div_pow]
  have hlt : flags >>> IORING_CQE_BUFFER_SHIFT < 65536 := by
    rw [hshift]
    simp only [M32] at hf
    omega
  constructor
  · simp only [buffer_select, Nat.mod_eq_of_lt hlt]
  · simp only [buffer_select]
    split <;> simp_all

/-- Witness for `buffer_select_spec`: flags `3 << 16 | 1` decode to buffer 3,
flags `2` decode to no buffer. -/
theorem buffer_select_spec_witness :
    buffer_select 196609 =
      (if 196609 &&& IORING_CQE_F_BUFFER ≠ 0 then
        some (196609 >>> IORING_CQE_BUFFER_SHIFT)
      else none) ∧
    (buffer_select 2 = none ↔ 2 &&& IORING_CQE_F_BUFFER = 0) :=
  ⟨(buffer_select_spec 196609 (by decide)).1, (buffer_select_spec 2 (by decide)).2⟩

/-- Claim C1: a view with `N = tail.wrapping_sub(head)` unconsumed entries
(`N` at most the capacity) drains through the iterator to exactly the `N`
entries at slots `(head + i) & ring_mask` in FIFO order, `next` yields `none`
exactly when `head = tail`, and the drained view is empty. -/
theorem iterator_drains_fifo (inner : Inner) (cq : CompletionQueue) (sh : Shared E)
    (N : Nat) (hh : cq.head < M32) (ht : cq.tail < M32) (hN : cq.len = N)
    (hcap : N ≤ capacity inner) :
    (cq.drain inner sh).1 =
      (List.range N).map (fun i => sh.cqes (((cq.head + i) % M32) &&& inner.ring_mask)) ∧
    (cq.drain inner sh).2.1.head = (cq.drain inner sh).2.1.tail ∧
    (cq.drain inner sh).2.1.len = 0 ∧
    (∀ cq2 : CompletionQueue, (cq2.next inner sh).1 = none ↔ cq2.head = cq2.tail) := by
  have hdr : cq.drain inner sh = popN inner cq.len cq sh :=
    drainAux_eq_popN inner sh cq.len cq hh ht (le_refl _)
  have hp := popN_spec inner sh cq.len cq hh
  have hhead : (cq.head + cq.len) % M32 = cq.tail := by
    have hlen_eq : cq.len = wsub cq.tail cq.head := rfl
    rw [hlen_eq]
    exact add_wsub_mod ht hh
  refine ⟨?_, ?_, ?_, ?_⟩
  · rw [hdr, hp, hN]
  · rw [hdr, hp]
    exact hhead
  · rw [hdr, hp]
    show wsub cq.tail ((cq.head + cq.len) % M32) = 0
    rw [hhead, wsub_self _ ht]
  · intro cq2
    by_cases hc2 : cq2.head = cq2.tail
    · simp [CompletionQueue.next, hc2]
    · simp [CompletionQueue.next, hc2]

/-- Witness for `iterator_drains_fifo`: a 4-slot ring with two entries
drains to `[100, 101]` and is then empty. -/
theorem iterator_drains_fifo_witness :
    (cqW.drain innerW shW).1 = [100, 101] ∧ (cqW.drain innerW shW).2.1.len = 0 := by
  have h := iterator_drains_fifo innerW cqW shW 2 (by decide) (by decide) (by decide) (by decide)
  exact ⟨h.1.trans (by decide), h.2.2.1⟩

/-- Claim C2: for any head/tail pair reached by a producer having appended
`p` entries total and a consumer having taken `c` of them (`p - c` within
capacity), `len` recovers the exact unconsumed count `p - c` even when the
32-bit counters wrap, and `len` is always the wrapping difference of the
snapshot counters. -/
theorem len_wrapping (inner : Inner) (p c : Nat) (hcap : capacity inner < M32)
    (hc : c ≤ p) (hb : p - c ≤ capacity inner) :
    CompletionQueue.len { head := c % M32, tail := p % M32 } = p - c ∧
    (∀ cq : CompletionQueue, cq.len = wsub cq.tail cq.head) := by
  refine ⟨?_, fun cq => rfl⟩
  show wsub (p % M32) (c % M32) = p - c
  simp only [wsub, M32, capacity] at *
  omega

/-- Witness for `len_wrapping`: counters straddling the `u32` wrap point,
`head = 2^32 - 3` and `tail = 5`, give length 8. -/
theorem len_wrapping_witness :
    CompletionQueue.len { head := 4294967293 % M32, tail := 4294967301 % M32 } = 8 := by
  have h := (len_wrapping innerW16 4294967301 4294967293 (by decide) (by decide) (by decide)).1
  exact h.trans (by decide)

/-- Claim C4: `fill` pops exactly `min(len, buffer_len)` entries, oldest
first, returning that prefix; the shared memory is untouched, and when the
buffer is shorter than the queue exactly `buffer_len` entries are consumed
and the length drops by exactly that amount. -/
theorem fill_spec (inner : Inner) (cq : CompletionQueue) (sh : Shared E)
    (k : Nat) (hh : cq.head < M32) (ht : cq.tail < M32) :
    (cq.fill inner sh k).1 =
      (List.range (min cq.len k)).map
        (fun i => sh.cqes (((cq.head + i) % M32) &&& inner.ring_mask)) ∧
    (cq.fill inner sh k).1.length = min cq.len k ∧
    (cq.fill inner sh k).2.1.len = cq.len - min cq.len k ∧
    (cq.fill inner sh k).2.2 = sh ∧
    (k < cq.len →
      (cq.fill inner sh k).1.length = k ∧
      (cq.fill inner sh k).2.1.len = cq.len - k) := by
  have hp := popN_spec inner sh (min cq.len k) cq hh
  have hmin : min cq.len k ≤ cq.len := Nat.min_le_left _ _
  have h1 : (cq.fill inner sh k).1 =
      (List.range (min cq.len k)).map
        (fun i => sh.cqes (((cq.head + i) % M32) &&& inner.ring_mask)) := by
    show (popN inner (min cq.len k) cq sh).1 = _
    rw [hp]
  have h2 : (cq.fill inner sh k).1.length = min cq.len k := by
    rw [h1]
    simp
  have h3 : (cq.fill inner sh k).2.1.len = cq.len - min cq.len k := by
    show (CompletionQueue.len (popN inner (min cq.len k) cq sh).2.1) = _
    rw [hp]
    show wsub cq.tail ((cq.head + min cq.len k) % M32) = _
    exact wsub_add_le ht hh hmin
  have h4 : (cq.fill inner sh k).2.2 = sh := by
    show (popN inner (min cq.len k) cq sh).2.2 = sh
    rw [hp]
  refine ⟨h1, h2, h3, h4, fun hk => ?_⟩
  have hminK : min cq.len k = k := Nat.min_eq_right (Nat.le_of_lt hk)
  rw [hminK] at h2 h3
  exact ⟨h2, h3⟩

/-- Witness for `fill_spec`: a buffer of length 1 against two available
entries consumes exactly one entry and leaves one. -/
theorem fill_spec_witness :
    (cqW.fill innerW shW 1).1 = [100] ∧ (cqW.fill innerW shW 1).2.1.len = cqW.len - 1 := by
  have h := fill_spec innerW cqW shW 1 (by decide) (by decide)
  exact ⟨h.1.trans (by decide), (h.2.2.2.2 (by decide)).2⟩

/-- The ghost totals of every reachable state are ordered
`published ≤ consumed ≤ snap ≤ produced` with at most `cap` outstanding. -/
theorem reach_invariant {cap : Nat} {g : Ghost} (hg : Reach cap g) :
    g.published ≤ g.consumed ∧ g.consumed ≤ g.snap ∧ g.snap ≤ g.produced ∧
    g.produced - g.published ≤ cap := by
  induction hg with
  | borrow p c hc hcap =>
    exact ⟨Nat.le_refl _, hc, Nat.le_refl _, hcap⟩
  | produce k hg hcap ih =>
    obtain ⟨h1, h2, h3, h4⟩ := ih
    exact ⟨h1, h2, by dsimp; omega, by dsimp; omega⟩
  | sync hg ih =>
    obtain ⟨h1, h2, h3, h4⟩ := ih
    exact ⟨Nat.le_refl _, by dsimp; omega, Nat.le_refl _, by dsimp; omega⟩
  | pop hg hne ih =>
    obtain ⟨h1, h2, h3, h4⟩ := ih
    exact ⟨by dsimp; omega, by dsimp; omega, h3, h4⟩
  | fill k hg ih =>
    obtain ⟨h1, h2, h3, h4⟩ := ih
    exact ⟨by dsimp; omega, by dsimp; omega, h3, h4⟩

/-- Claim C6: in every state reachable by borrowing and then syncing,
popping (nonempty), filling, and iterating — under a producer that never
runs more than `ring_entries` ahead of the published head — the view's
length is the exact outstanding count, never negative and never above the
capacity. -/
theorem reachable_len_bounded (inner : Inner) (g : Ghost)
    (hcap : capacity inner < M32) (hg : Reach (capacity inner) g) :
    (Ghost.view g).len = g.snap - g.consumed ∧
    (Ghost.view g).len ≤ capacity inner := by
  obtain ⟨h1, h2, h3, h4⟩ := reach_invariant hg
  have hlen : (Ghost.view g).len = g.snap - g.consumed := by
    show wsub (g.snap % M32) (g.consumed % M32) = g.snap - g.consumed
    simp only [wsub, M32, capacity] at *
    omega
  refine ⟨hlen, ?_⟩
  rw [hlen]
  omega

/-- Witness for `reachable_len_bounded`: after borrowing at 2 outstanding
entries and popping one, the view length is 1 and within the capacity 4. -/
theorem reachable_len_bounded_witness :
    (Ghost.view ⟨5, 5, 4, 3⟩).len = 1 ∧ (Ghost.view ⟨5, 5, 4, 3⟩).len ≤ capacity innerW := by
  have h := reachable_len_bounded innerW ⟨5, 5, 4, 3⟩ (by decide)
    (Reach.pop (Reach.borrow 5 3 (by decide) (by decide)) (by decide))
  exact ⟨h.1.trans (by decide), h.2⟩

/-- Claim C9: the serialized compact entry is exactly 16 bytes and the
extended entry exactly 32: bytes 0–7 hold the correlation token, bytes 8–11
the two's-complement result code, bytes 12–15 the flags, and the extended
entry appends the two auxiliary 64-bit words to the compact 16 bytes. -/
theorem entry_layout (e : Entry) (e32 : Entry32)
    (hu : e.cqe.user_data < 18446744073709551616)
    (hf : e.cqe.flags < 4294967296)
    (hr : -2147483648 ≤ e.cqe.res ∧ e.cqe.res < 2147483648) :
    (Entry.toBytes e).length = 16 ∧
    (Entry32.toBytes e32).length = 32 ∧
    leVal ((Entry.toBytes e).take 8) = e.cqe.user_data ∧
    (if leVal (((Entry.toBytes e).drop 8).take 4) < 2147483648 then
        (leVal (((Entry.toBytes e).drop 8).take 4) : Int)
      else (leVal (((Entry.toBytes e).drop 8).take 4) : Int) - 4294967296) = e.cqe.res ∧
    leVal ((Entry.toBytes e).drop 12) = e.cqe.flags ∧
    (Entry32.toBytes e32).take 16 = Entry.toBytes e32.base ∧
    (Entry32.toBytes e32).drop 16 = u64Bytes e32.big0 ++ u64Bytes e32.big1 := by
  have htake8 : (Entry.toBytes e).take 8 = u64Bytes e.cqe.user_data := rfl
  have hmid : ((Entry.toBytes e).drop 8).take 4 = i32Bytes e.cqe.res := rfl
  have hdrop12 : (Entry.toBytes e).drop 12 = u32Bytes e.cqe.flags := rfl
  have hm_lt : (e.cqe.res % 4294967296).toNat < 4294967296 := by
    omega
  have hv : leVal (((Entry.toBytes e).drop 8).take 4) = (e.cqe.res % 4294967296).toNat := by
    rw [hmid]
    exact leVal_u32 _ hm_lt
  refine ⟨rfl, rfl, ?_, ?_, ?_, rfl, rfl⟩
  · rw [htake8]
    exact leVal_u64 _ hu
  · rw [hv]
    obtain ⟨hr1, hr2⟩ := hr
    split <;> omega
  · rw [hdrop12]
    exact leVal_u32 _ hf

/-- Witness for `entry_layout` at a concrete entry: 16/32-byte lengths and
the token decoding from bytes 0–7. -/
theorem entry_layout_witness :
    (Entry.toBytes eW).length = 16 ∧ (Entry32.toBytes e32W).length = 32 ∧
    leVal ((Entry.toBytes eW).take 8) = 258 := by
  have h := entry_layout eW e32W (by decide) (by decide) (by decide)
  exact ⟨h.1, h.2.1, h.2.2.1⟩

/-- Claim C10: converting an `Entry32` to an `Entry` keeps the result code,
the correlation token and the flags unchanged, and keeps exactly the base
16-byte entry, discarding only the auxiliary payload. -/
theorem entry32_into_entry_preserves (e : Entry32) :
    (Entry.ofEntry32 e).result = e.result ∧
    (Entry.ofEntry32 e).user_data = e.user_data ∧
    (Entry.ofEntry32 e).flags = e.flags ∧
    Entry.ofEntry32 e = e.base :=
  ⟨rfl, rfl, rfl, rfl⟩

end IoUring
